import Mathlib

/-!
Shallow embedding of the konsone n-gram statistics engine
(src/tribuf.rs, src/store.rs, src/corpus.rs).

Modelling conventions:
* `SystemTime` is a `Nat` counting nanoseconds since the Unix epoch;
  `Duration::as_secs` is integer division by `NANOS`.
* Rust `HashMap`s are association lists with unique keys; the source only
  relies on `entry/or_insert`, lookup and iteration, all order-insensitive.
* Unsigned counters (`u32`, `usize`) are `Nat`; the spec declares overflow
  out of scope at realistic usage scales (spec section 3).
* Fallible operations (array indexing that can panic, `WeightedIndex::new`
  failing, `serde` I/O) return `Option`; `none` models the panic / error.
* Writing bytes to a file is abstracted by `StoreRepr`, the exact field
  tuple handed to the (deterministic, injective) BARE serializer.
-/

namespace Konsone

/-- Abstract key identifier (models `rdev::Key`; only decidable equality is
used by the program). -/
inductive Key where
  | KeyA
  | KeyB
  | KeyC
  | Unknown (code : Nat)
deriving DecidableEq

/-- A keystroke is a keypress with an OS interpreted value (src/corpus.rs). -/
structure Keystroke where
  key : Key
  interpreted : String
deriving DecidableEq

/-- Event kind (models `rdev::EventType`; only the three shapes the program
distinguishes). -/
inductive EventType where
  | KeyPress (k : Key)
  | KeyRelease (k : Key)
  | Other
deriving DecidableEq

/-- A device event: timestamp (nanoseconds since the Unix epoch), kind, and
optional OS-interpreted name (models `rdev::Event`). -/
structure Event where
  time : Nat
  event_type : EventType
  name : Option String
deriving DecidableEq

/-- Nanoseconds per second; `Duration::as_secs` divides by this. -/
def NANOS : Nat := 1000000000

/-- `const MAX_KEY_DELAY: u64 = 2;` (src/store.rs). -/
def MAX_KEY_DELAY : Nat := 2

/-- `EventWrapper::default()` (src/store.rs): epoch time, `KeyPress(Unknown(0))`,
no name. -/
def defaultEvent : Event :=
  { time := 0, event_type := EventType.KeyPress (Key.Unknown 0), name := none }

/-- Circular buffer of size 3 with a single cursor (src/tribuf.rs).
`data` models the fixed array `[T; 3]`; `cursor` models the `usize` cursor,
which is *not* intrinsically bounded (a deserialized buffer could carry an
out-of-range cursor). -/
structure Buffer (T : Type) where
  data : Fin 3 → T
  cursor : Nat

/-- `Buffer::new()`: three default-filled slots, cursor 0. -/
def Buffer.new {T : Type} (d : T) : Buffer T :=
  { data := fun _ => d, cursor := 0 }

/-- `Buffer::push`: `self.data[self.cursor] = value; self.cursor = (self.cursor + 1) % 3;`.
The unchecked array write panics when the cursor is out of range, modelled
by `none`. -/
def Buffer.push {T : Type} (b : Buffer T) (v : T) : Option (Buffer T) :=
  if h : b.cursor < 3 then
    some { data := Function.update b.data ⟨b.cursor, h⟩ v, cursor := (b.cursor + 1) % 3 }
  else none

/-- `Buffer::to_vec`: `for i in (self.cursor..self.cursor + 3).rev() { result.push(self.data[i % 3]) }`,
i.e. reads indices `cursor+2, cursor+1, cursor` modulo 3, newest to oldest. -/
def Buffer.to_vec {T : Type} (b : Buffer T) : List T :=
  [ b.data ⟨(b.cursor + 2) % 3, by omega⟩,
    b.data ⟨(b.cursor + 1) % 3, by omega⟩,
    b.data ⟨b.cursor % 3, by omega⟩ ]

/-- Iterated `push`, propagating a panic. -/
def Buffer.pushAll {T : Type} (b : Buffer T) (vs : List T) : Option (Buffer T) :=
  match vs with
  | [] => some b
  | v :: rest =>
    match b.push v with
    | none => none
    | some b1 => b1.pushAll rest

/-- Association-list lookup, modelling `HashMap` lookup. -/
def lookupA {K V : Type} [DecidableEq K] : List (K × V) → K → Option V
  | [], _ => none
  | (k1, v) :: rest, k => if k1 = k then some v else lookupA rest k

/-- Count stored for a key, zero when absent. -/
def lookupCount {K : Type} [DecidableEq K] (m : List (K × Nat)) (k : K) : Nat :=
  (lookupA m k).getD 0

/-- Key membership in a map. -/
def hasKey {K V : Type} [DecidableEq K] (m : List (K × V)) (k : K) : Bool :=
  (lookupA m k).isSome

/-- `*self.map.entry(k).or_insert(0) += 1`: bump the count, inserting 1 for a
fresh key. -/
def incr {K : Type} [DecidableEq K] (m : List (K × Nat)) (k : K) : List (K × Nat) :=
  match m with
  | [] => [(k, 1)]
  | (k1, v) :: rest => if k1 = k then (k1, v + 1) :: rest else (k1, v) :: incr rest k

/-- `self.map.entry(k).or_insert(Vec::new()).push(v)` for the generator's
adjacency lists. -/
def appendEntry {K : Type} [DecidableEq K] (m : List (K × List (Nat × Nat))) (k : K)
    (v : Nat × Nat) : List (K × List (Nat × Nat)) :=
  match m with
  | [] => [(k, [v])]
  | (k1, l) :: rest => if k1 = k then (k1, l ++ [v]) :: rest else (k1, l) :: appendEntry rest k v

/-- The store for keypresses (src/store.rs). -/
structure Store where
  heatmap : List (Keystroke × Nat)
  bigram : List ((Keystroke × Keystroke) × Nat)
  trigram : List ((Keystroke × Keystroke × Keystroke) × Nat)
  ngrams : Buffer Event
  last_save : Nat
  filename : String

/-- `Store::new`: empty tables, default-filled window, persistence clock
started at the current time. -/
def Store.new (now : Nat) (filename : String) : Store :=
  { heatmap := [], bigram := [], trigram := [],
    ngrams := Buffer.new defaultEvent, last_save := now, filename := filename }

/-- `event_to_keystroke` (src/store.rs). -/
def event_to_keystroke (e : Event) : Keystroke :=
  { key :=
      match e.event_type with
      | EventType.KeyPress k => k
      | EventType.KeyRelease k => k
      | EventType.Other => Key.Unknown 0,
    interpreted := e.name.getD "" }

/-- Keystroke of the placeholder window slot. -/
def placeholderKs : Keystroke := event_to_keystroke defaultEvent

/-- `is_within_delay` (src/store.rs): `e1.time.duration_since(e2.time)` is
`Ok(e1.time - e2.time)` when `e2.time <= e1.time` and `Err` otherwise; the
error is replaced by `Duration::from_secs(MAX_KEY_DELAY + 1)`; the result's
whole seconds are compared with `MAX_KEY_DELAY`. -/
def is_within_delay (e1 e2 : Event) : Bool :=
  decide ((if e2.time ≤ e1.time then (e1.time - e2.time) / NANOS else MAX_KEY_DELAY + 1)
    < MAX_KEY_DELAY)

/-- Exact field tuple handed to the BARE serializer for a `Store`; two byte
outputs of the deterministic serializer are equal iff these tuples are. -/
structure StoreRepr where
  heatmap : List (Keystroke × Nat)
  bigram : List ((Keystroke × Keystroke) × Nat)
  trigram : List ((Keystroke × Keystroke × Keystroke) × Nat)
  ngramsData : List Event
  ngramsCursor : Nat
  last_save : Nat
  filename : String
deriving DecidableEq

/-- Serialized image of the window buffer: array contents and cursor. -/
def serializeBuffer (b : Buffer Event) : List Event :=
  [b.data 0, b.data 1, b.data 2]

/-- Serialized image of the whole store (`serde_bare::to_writer(file, &self)`
serializes every field, including `ngrams`, `last_save` and `filename`). -/
def serializeStore (s : Store) : StoreRepr :=
  { heatmap := s.heatmap, bigram := s.bigram, trigram := s.trigram,
    ngramsData := serializeBuffer s.ngrams, ngramsCursor := s.ngrams.cursor,
    last_save := s.last_save, filename := s.filename }

/-- Environment of one potential save: the clock reading taken by
`SystemTime::now()` and whether the file create/write succeeds. -/
structure SaveEnv where
  now : Nat
  writeOk : Bool

/-- `Store::save`: serialize the current state (with the *old* `last_save`),
and only on success record the current time as `last_save`. On failure the
store is untouched and no bytes are produced. -/
def Store.save (s : Store) (env : SaveEnv) : Store × Option StoreRepr :=
  if env.writeOk then ({ s with last_save := env.now }, some (serializeStore s))
  else (s, none)

/-- Result of the periodic persistence check inside `update`. -/
inductive SaveOutcome where
  | notAttempted
  | failed
  | succeeded (bytes : StoreRepr)
deriving DecidableEq

/-- Table-update half of `Store::update`: push into the window, read the
3-item snapshot `[e0, e1, e2]` (newest first), always bump the unigram count
for `e0`, bump the bigram for `(e1, e0)` when `is_within_delay(e0, e1)`, and
only then bump the trigram for `(e2, e1, e0)` when additionally
`is_within_delay(e1, e2)`. -/
def Store.tablesStep (s : Store) (ew : Event) : Option Store :=
  match s.ngrams.push ew with
  | none => none
  | some ng =>
    match ng.to_vec with
    | e0 :: e1 :: e2 :: _ =>
      let s1 : Store := { s with ngrams := ng, heatmap := incr s.heatmap (event_to_keystroke e0) }
      some (if is_within_delay e0 e1 then
        let sb : Store :=
          { s1 with bigram := incr s1.bigram (event_to_keystroke e1, event_to_keystroke e0) }
        if is_within_delay e1 e2 then
          let tg := incr sb.trigram (event_to_keystroke e2, event_to_keystroke e1, event_to_keystroke e0)
          { sb with trigram := tg }
        else sb
      else s1)
    | _ => none

/-- Persistence half of `Store::update`: `self.last_save.elapsed()` is `Ok`
iff `now` is not before `last_save`; on `Ok(elapsed)` save when
`elapsed.as_secs() > 600`; on `Err` log and save; a save failure is logged
and swallowed. -/
def Store.persistStep (s : Store) (env : SaveEnv) : Store × SaveOutcome :=
  if s.last_save ≤ env.now then
    if 600 < (env.now - s.last_save) / NANOS then
      match s.save env with
      | (s1, some bytes) => (s1, SaveOutcome.succeeded bytes)
      | (s1, none) => (s1, SaveOutcome.failed)
    else (s, SaveOutcome.notAttempted)
  else
    match s.save env with
    | (s1, some bytes) => (s1, SaveOutcome.succeeded bytes)
    | (s1, none) => (s1, SaveOutcome.failed)

/-- `Store::update`: table updates followed by the periodic persistence
check. -/
def Store.update (s : Store) (ew : Event) (env : SaveEnv) : Option (Store × SaveOutcome) :=
  (s.tablesStep ew).map (fun mid => mid.persistStep env)

/-- `Store::process_event`: only `KeyPress` events reach `update`; everything
else is discarded. -/
def Store.process_event (s : Store) (e : Event) (env : SaveEnv) : Option (Store × SaveOutcome) :=
  match e.event_type with
  | EventType.KeyPress _ => s.update e env
  | _ => some (s, SaveOutcome.notAttempted)

/-- Feed a sequence of events (each with its clock/IO environment) through
the store. -/
def processEvents (s : Store) (l : List (Event × SaveEnv)) : Option Store :=
  match l with
  | [] => some s
  | (e, env) :: rest =>
    match s.process_event e env with
    | none => none
    | some (s1, _) => processEvents s1 rest

/-- Whether an event is a key press. -/
def isPress (e : Event) : Bool :=
  match e.event_type with
  | EventType.KeyPress _ => true
  | _ => false

/-- Number of key-press events in a processed sequence. -/
def pressCount (l : List (Event × SaveEnv)) : Nat :=
  (l.filter (fun p => isPress p.1)).length

/-- Sum of all unigram counts. -/
def heatmapTotal (s : Store) : Nat :=
  (s.heatmap.map Prod.snd).sum

/-- Every keystroke occurring in a bigram or trigram key is present in the
unigram table. -/
def participantsOk (s : Store) : Prop :=
  (∀ p ∈ s.bigram, hasKey s.heatmap p.1.1 = true ∧ hasKey s.heatmap p.1.2 = true) ∧
  (∀ p ∈ s.trigram, hasKey s.heatmap p.1.1 = true ∧ hasKey s.heatmap p.1.2.1 = true ∧
    hasKey s.heatmap p.1.2.2 = true)

/-- The pseudo-random keystroke generator (src/corpus.rs). The `ThreadRng` is
externalized: each draw consumes a uniformly random `r < total weight`. -/
structure Generator where
  keystrokes : List Keystroke
  weights : List Nat
  bigram_lookup : List (Nat × List (Nat × Nat))
  trigram_lookup : List ((Nat × Nat) × List (Nat × Nat))
  preceeding : Option Nat × Option Nat
deriving DecidableEq

/-- Dense index of a keystroke in the enumerated key list; `keylookup[&k]`
panics (`none`) when the keystroke is absent (orphaned bigram/trigram
participant). The heatmap's keys are unique, so first-match agrees with the
`HashMap` built in the source. -/
def indexOf : List Keystroke → Keystroke → Option Nat
  | [], _ => none
  | k1 :: rest, k => if k1 = k then some 0 else (indexOf rest k).map (· + 1)

/-- `Generator::new`: unzip the unigram table into parallel key/weight lists,
then fold every bigram entry `((a,b),w)` as `(index b, w)` under `index a`,
and every trigram entry `((a,b,c),w)` as `(index c, w)` under
`(index a, index b)`. -/
def Generator.new (ksMap : List (Keystroke × Nat)) (bgMap : List ((Keystroke × Keystroke) × Nat))
    (tgMap : List ((Keystroke × Keystroke × Keystroke) × Nat)) : Option Generator :=
  let keys := ksMap.map Prod.fst
  let weights := ksMap.map Prod.snd
  match bgMap.foldlM (fun acc kv =>
      (indexOf keys kv.1.1).bind (fun ia =>
        (indexOf keys kv.1.2).map (fun ib => appendEntry acc ia (ib, kv.2)))) [] with
  | none => none
  | some bigram_lookup =>
    match tgMap.foldlM (fun acc kv =>
        (indexOf keys kv.1.1).bind (fun ia =>
          (indexOf keys kv.1.2.1).bind (fun ib =>
            (indexOf keys kv.1.2.2).map (fun ic => appendEntry acc (ia, ib) (ic, kv.2))))) [] with
    | none => none
    | some trigram_lookup =>
      some { keystrokes := keys, weights := weights, bigram_lookup := bigram_lookup,
             trigram_lookup := trigram_lookup, preceeding := (none, none) }

/-- `weights[i] += w`: indexed write, panicking (`none`) out of bounds. -/
def addWeight (ws : List Nat) (i w : Nat) : Option (List Nat) :=
  if h : i < ws.length then some (ws.set i (ws.get ⟨i, h⟩ + w)) else none

/-- `for_each(|(i, w)| weights[*i] += w)` over an adjacency list: sequential
indexed writes onto the weight vector, propagating a panic. -/
def boost (ws : List Nat) (entries : List (Nat × Nat)) : Option (List Nat) :=
  match entries with
  | [] => some ws
  | iw :: rest =>
    match addWeight ws iw.1 iw.2 with
    | none => none
    | some ws1 => boost ws1 rest

/-- `WeightedIndex::sample` semantics: for a uniform draw `r` in
`[0, total)`, the chosen index is the first whose cumulative weight
exceeds `r`. -/
def weightedChoice (ws : List Nat) (r : Nat) : Nat :=
  match ws with
  | [] => 0
  | w :: rest => if r < w then 0 else weightedChoice rest (r - w) + 1

/-- Weight-vector computation at the head of `generate_random_keystroke`:
copy the base weights; when a first preceding index exists add that index's
bigram-adjacency weights; when a second also exists add the adjacency
weights of the `(second, first)` pair (`preceeding[0].unwrap()` panics if
the first is missing). -/
def Generator.sampleWeights (g : Generator) : Option (List Nat) :=
  let ws0 := g.weights
  match (match g.preceeding.1 with
         | some index => boost ws0 ((lookupA g.bigram_lookup index).getD [])
         | none => some ws0) with
  | none => none
  | some ws1 =>
    match g.preceeding.2 with
    | some index =>
      match g.preceeding.1 with
      | some first => boost ws1 ((lookupA g.trigram_lookup (index, first)).getD [])
      | none => none
    | none => some ws1

/-- `Generator::generate_random_keystroke`, with the random draw `r`
externalized: compute the boosted weights, build the `WeightedIndex`
(failing exactly when the total weight is zero), draw the index, shift the
two-slot history, and return the keystroke at the drawn index. -/
def Generator.generate_random_keystroke (g : Generator) (r : Nat) :
    Option (Generator × Keystroke) :=
  match g.sampleWeights with
  | none => none
  | some ws =>
    if ws.sum = 0 then none
    else if r < ws.sum then
      let index := weightedChoice ws r
      match g.keystrokes.get? index with
      | some ks => some ({ g with preceeding := (some index, g.preceeding.1) }, ks)
      | none => none
    else none

/-- Total extra weight an adjacency list contributes to target index `j`. -/
def contrib (entries : List (Nat × Nat)) (j : Nat) : Nat :=
  ((entries.filter (fun p => p.1 == j)).map Prod.snd).sum

/-- Boost contributed by the first preceding index, as the claim describes
it. -/
def bigramContrib (g : Generator) (j : Nat) : Nat :=
  match g.preceeding.1 with
  | some i => contrib ((lookupA g.bigram_lookup i).getD []) j
  | none => 0

/-- Boost contributed by the `(second, first)` preceding pair, as the claim
describes it. -/
def trigramContrib (g : Generator) (j : Nat) : Nat :=
  match g.preceeding.2 with
  | some i2 =>
    match g.preceeding.1 with
    | some i1 => contrib ((lookupA g.trigram_lookup (i2, i1)).getD []) j
    | none => 0
  | none => 0

/-- Processing invariant behind C6: the window cursor is in range, every
window slot is either the untouched placeholder or a previously accepted
event that is at least `MAX_KEY_DELAY` seconds after the epoch and whose
keystroke is already counted in the heatmap, and every bigram/trigram
participant has a unigram entry. -/
def c6Inv (s : Store) : Prop :=
  s.ngrams.cursor < 3 ∧
  (∀ i : Fin 3, s.ngrams.data i = defaultEvent ∨
    (MAX_KEY_DELAY * NANOS ≤ (s.ngrams.data i).time ∧
     hasKey s.heatmap (event_to_keystroke (s.ngrams.data i)) = true)) ∧
  participantsOk s

/-- Concrete event at t = 5s (example input). -/
def exEventA : Event := ⟨5 * NANOS, EventType.KeyPress Key.KeyA, some "a"⟩

/-- Concrete event at t = 4s, out of order w.r.t. `exEventA` (example
input). -/
def exEventB : Event := ⟨4 * NANOS, EventType.KeyPress Key.KeyB, some "b"⟩

/-- A store whose window slots all hold `exEventA` (example input). -/
def exStore : Store :=
  { heatmap := [], bigram := [], trigram := [],
    ngrams := { data := fun _ => exEventA, cursor := 0 },
    last_save := 0, filename := "keymap" }

/-- Concrete event at t = 5.5s (example input). -/
def exEventC : Event := ⟨5 * NANOS + NANOS / 2, EventType.KeyPress Key.KeyC, some "c"⟩

/-- Concrete key-press at t = 1000s (counterexample input). -/
def cexEventA : Event := ⟨1000 * NANOS, EventType.KeyPress Key.KeyA, some "a"⟩

/-- Concrete key-press at t = 1003s (counterexample input). -/
def cexEventB : Event := ⟨1003 * NANOS, EventType.KeyPress Key.KeyB, some "b"⟩

/-- Concrete key-press at t = 1003.5s (counterexample input). -/
def cexEventC : Event := ⟨1003 * NANOS + NANOS / 2, EventType.KeyPress Key.KeyC, some "c"⟩

/-- Environment whose clock reads the epoch, so the periodic save does not
trigger against a fresh store (example input). -/
def quietEnv : SaveEnv := ⟨0, true⟩

/-- A small generator with two keystrokes, a bigram boost from index 0 to
index 1, and index 0 as the first preceding index (example input). -/
def exGen : Generator :=
  { keystrokes := [⟨Key.KeyA, "a"⟩, ⟨Key.KeyB, "b"⟩], weights := [1, 1],
    bigram_lookup := [(0, [(1, 100)])], trigram_lookup := [],
    preceeding := (some 0, none) }

/-! ## Sliding-window lemmas -/

theorem to_vec_length {T : Type} (b : Buffer T) : b.to_vec.length = 3 := by
  simp [Buffer.to_vec]

theorem push_step {T : Type} (b : Buffer T) (v : T) (h : b.cursor < 3) :
    ∃ b1, b.push v = some b1 ∧ b1.cursor < 3 ∧ b1.to_vec = v :: b.to_vec.take 2 ∧
      ∀ i : Fin 3, b1.data i = v ∨ b1.data i = b.data i := by
  obtain ⟨data, c⟩ := b
  simp only [Buffer.push]
  rw [dif_pos h]
  refine ⟨_, rfl, by simp [Nat.mod_lt], ?_, ?_⟩
  · simp only at h
    interval_cases c <;>
      simp [Buffer.to_vec, Function.update_apply, Fin.ext_iff]
  · intro i
    by_cases hi : i = ⟨c, h⟩
    · subst hi; simp
    · right; simp [Function.update_apply, hi]

theorem take_append_cons {T : Type} (m : Nat) (xs l : List T) (v : T) :
    ∀ n, n ≤ xs.length + 1 + m →
      (xs ++ v :: l.take m).take n = (xs ++ v :: l).take n := by
  induction xs with
  | nil =>
    intro n hn
    cases n with
    | zero => simp
    | succ k =>
      simp only [List.length_nil] at hn
      simp only [List.nil_append, List.take_succ_cons, List.take_take]
      rw [Nat.min_eq_left (by omega)]
  | cons x xs ih =>
    intro n hn
    cases n with
    | zero => simp
    | succ k =>
      simp only [List.cons_append, List.take_succ_cons]
      rw [ih k (by simp at hn ⊢; omega)]

theorem pushAll_window {T : Type} (vs : List T) :
    ∀ b : Buffer T, b.cursor < 3 →
      ∃ b', b.pushAll vs = some b' ∧ b'.cursor < 3 ∧
        b'.to_vec = (vs.reverse ++ b.to_vec).take 3 := by
  induction vs with
  | nil =>
    intro b hb
    refine ⟨b, rfl, hb, ?_⟩
    obtain ⟨data, c⟩ := b
    simp [Buffer.to_vec]
  | cons v rest ih =>
    intro b hb
    obtain ⟨b1, hp, hb1, hv1, _⟩ := push_step b v hb
    obtain ⟨b', hall, hb', hv'⟩ := ih b1 hb1
    refine ⟨b', ?_, hb', ?_⟩
    · simp [Buffer.pushAll, hp, hall]
    · rw [hv', hv1]
      rw [take_append_cons 2 rest.reverse b.to_vec v 3 (by omega)]
      simp

theorem new_to_vec {T : Type} (d : T) : (Buffer.new d).to_vec = [d, d, d] := by
  simp [Buffer.new, Buffer.to_vec]

/-! ## Association-list lemmas -/

theorem lookupA_incr_self {K : Type} [DecidableEq K] (m : List (K × Nat)) (k : K) :
    lookupA (incr m k) k = some (lookupCount m k + 1) := by
  induction m with
  | nil => simp [incr, lookupA, lookupCount]
  | cons kv rest ih =>
    obtain ⟨k1, v⟩ := kv
    by_cases h : k1 = k
    · subst h; simp [incr, lookupA, lookupCount]
    · simp [incr, lookupA, h, ih, lookupCount]

theorem lookupA_incr_ne {K : Type} [DecidableEq K] (m : List (K × Nat)) (k k' : K)
    (h : k' ≠ k) : lookupA (incr m k) k' = lookupA m k' := by
  induction m with
  | nil => simp [incr, lookupA, Ne.symm h]
  | cons kv rest ih =>
    obtain ⟨k1, v⟩ := kv
    by_cases h1 : k1 = k
    · subst h1
      simp [incr, lookupA, Ne.symm h]
    · by_cases h2 : k1 = k' <;> simp [incr, lookupA, h1, h2, ih, h]

theorem lookupCount_incr_self {K : Type} [DecidableEq K] (m : List (K × Nat)) (k : K) :
    lookupCount (incr m k) k = lookupCount m k + 1 := by
  simp [lookupCount, lookupA_incr_self]

theorem hasKey_incr_self {K : Type} [DecidableEq K] (m : List (K × Nat)) (k : K) :
    hasKey (incr m k) k = true := by
  simp [hasKey, lookupA_incr_self]

theorem hasKey_incr_mono {K : Type} [DecidableEq K] (m : List (K × Nat)) (k k' : K)
    (h : hasKey m k' = true) : hasKey (incr m k) k' = true := by
  by_cases hk : k' = k
  · subst hk; exact hasKey_incr_self m k'
  · simpa [hasKey, lookupA_incr_ne m k k' hk] using h

theorem incr_total {K : Type} [DecidableEq K] (m : List (K × Nat)) (k : K) :
    ((incr m k).map Prod.snd).sum = (m.map Prod.snd).sum + 1 := by
  induction m with
  | nil => simp [incr]
  | cons kv rest ih =>
    obtain ⟨k1, v⟩ := kv
    by_cases h : k1 = k
    · subst h; simp [incr]; omega
    · simp [incr, h, ih]; omega

theorem incr_pos {K : Type} [DecidableEq K] (m : List (K × Nat)) (k : K)
    (h : ∀ kv ∈ m, 0 < kv.2) : ∀ kv ∈ incr m k, 0 < kv.2 := by
  induction m with
  | nil =>
    intro p hp
    simp only [incr, List.mem_singleton] at hp
    subst hp; omega
  | cons kv rest ih =>
    obtain ⟨k1, v⟩ := kv
    have hv : 0 < v := h (k1, v) (List.mem_cons_self _ _)
    have hrest : ∀ p ∈ rest, 0 < p.2 := fun p hp => h p (List.mem_cons_of_mem _ hp)
    by_cases h1 : k1 = k
    · subst h1
      intro p hp
      simp only [incr, if_pos rfl] at hp
      rcases List.mem_cons.mp hp with h2 | h2
      · subst h2; omega
      · exact hrest p h2
    · intro p hp
      simp only [incr, if_neg h1] at hp
      rcases List.mem_cons.mp hp with h2 | h2
      · subst h2; exact hv
      · exact ih hrest p h2

/-! ## Persistence-step helper -/

theorem persistStep_fields (s : Store) (env : SaveEnv) :
    (s.persistStep env).1.heatmap = s.heatmap ∧ (s.persistStep env).1.bigram = s.bigram ∧
    (s.persistStep env).1.trigram = s.trigram ∧ (s.persistStep env).1.ngrams = s.ngrams := by
  obtain ⟨now, ok⟩ := env
  by_cases h1 : s.last_save ≤ now <;> by_cases h2 : 600 < (now - s.last_save) / NANOS <;>
    cases ok <;> simp [Store.persistStep, Store.save, h1, h2]

/-- C9: after pushing `v1..vn` into a fresh `Buffer`, `to_vec` returns
`[v_n, v_{n-1}, v_{n-2}]` when `n ≥ 3`, and the pushed values newest-first
followed by `3-n` default placeholders when `n < 3`; its first element is
always the most recently pushed item. (`to_vec` takes `&self`, so the
snapshot itself mutates nothing; here it is a pure function of the
buffer.) -/
theorem c9_window_snapshot (T : Type) (d : T) (vs : List T) :
    ∃ b', (Buffer.new d).pushAll vs = some b' ∧
      (∀ us a b c, vs = us ++ [a, b, c] → b'.to_vec = [c, b, a]) ∧
      (vs.length < 3 → b'.to_vec = vs.reverse ++ List.replicate (3 - vs.length) d) ∧
      (∀ us v, vs = us ++ [v] → b'.to_vec.head? = some v) := by
  obtain ⟨b', hall, hb', hv⟩ := pushAll_window vs (Buffer.new d) (by simp [Buffer.new])
  rw [new_to_vec] at hv
  refine ⟨b', hall, ?_, ?_, ?_⟩
  · rintro us a b c rfl
    rw [hv]; simp
  · intro hlen
    rw [hv]
    rcases vs with _ | ⟨x, _ | ⟨y, _ | ⟨z, rest⟩⟩⟩
    · simp
    · simp [List.replicate_succ]
    · simp [List.replicate_succ]
    · simp at hlen; omega
  · rintro us v rfl
    rw [hv]; simp

/-- Witness for C9: pushing `1,2,3,4` into a fresh buffer of naturals yields
the snapshot `[4, 3, 2]`, whose head is the last push. -/
theorem c9_witness :
    ∃ b', (Buffer.new (0 : Nat)).pushAll [1, 2, 3, 4] = some b' ∧
      b'.to_vec = [4, 3, 2] ∧ b'.to_vec.head? = some 4 := by
  obtain ⟨b', hall, h3, _, hh⟩ := c9_window_snapshot Nat 0 [1, 2, 3, 4]
  exact ⟨b', hall, h3 [1] 2 3 4 rfl, hh [1, 2, 3] 4 rfl⟩

/-- C10: a buffer built by `new` followed by any sequence of pushes keeps its
cursor strictly below 3, so every indexed array access stays in bounds —
`pushAll` never takes the panic branch (`none`) — and `to_vec` always
returns exactly 3 elements. (A `Buffer` deserialized from external bytes is
not validated: `Buffer.push` is defined on arbitrary cursors and models the
panic for an out-of-range one.) -/
theorem c10_cursor_invariant (T : Type) (d : T) (vs : List T) :
    ∃ b', (Buffer.new d).pushAll vs = some b' ∧ b'.cursor < 3 ∧ b'.to_vec.length = 3 := by
  obtain ⟨b', hall, hb', _⟩ := pushAll_window vs (Buffer.new d) (by simp [Buffer.new])
  exact ⟨b', hall, hb', to_vec_length b'⟩

/-! ## Store-update helpers -/

theorem to_vec_shape {T : Type} (b : Buffer T) : ∃ x y z, b.to_vec = [x, y, z] :=
  ⟨_, _, _, rfl⟩

theorem push_some_cursor {T : Type} (b : Buffer T) (v : T) (ng : Buffer T)
    (h : b.push v = some ng) : ng.cursor < 3 := by
  unfold Buffer.push at h
  split at h
  · cases h
    simp [Nat.mod_lt]
  · cases h

theorem tablesStep_spec (s : Store) (ew : Event) (ng : Buffer Event) (e0 e1 e2 : Event)
    (hpush : s.ngrams.push ew = some ng) (hw : ng.to_vec = [e0, e1, e2]) :
    ∃ mid, s.tablesStep ew = some mid ∧
      mid.heatmap = incr s.heatmap (event_to_keystroke e0) ∧
      mid.bigram = (if is_within_delay e0 e1 = true then
          incr s.bigram (event_to_keystroke e1, event_to_keystroke e0) else s.bigram) ∧
      mid.trigram = (if (is_within_delay e0 e1 && is_within_delay e1 e2) = true then
          incr s.trigram (event_to_keystroke e2, event_to_keystroke e1, event_to_keystroke e0)
        else s.trigram) ∧
      mid.ngrams = ng ∧ mid.last_save = s.last_save ∧ mid.filename = s.filename := by
  cases hb : is_within_delay e0 e1 <;> cases ht : is_within_delay e1 e2 <;>
    simp [Store.tablesStep, hpush, hw, hb, ht]

theorem pressCount_cons (e : Event) (env : SaveEnv) (rest : List (Event × SaveEnv)) :
    pressCount ((e, env) :: rest) = (if isPress e = true then 1 else 0) + pressCount rest := by
  cases hp : isPress e <;> simp [pressCount, hp]
  omega

/-- C8: whenever the later event's timestamp is strictly before the earlier
event's (the case where `duration_since` fails), the delay check substitutes
a `MAX_KEY_DELAY + 1`-second gap and returns `false`; in `update` neither a
bigram nor a trigram association is recorded from that comparison, and
processing completes normally (no panic: the error is logged and
swallowed). -/
theorem c8_clock_anomaly (s : Store) (ew : Event) (env : SaveEnv) (ng : Buffer Event)
    (e0 e1 e2 : Event) (hpush : s.ngrams.push ew = some ng) (hw : ng.to_vec = [e0, e1, e2])
    (hlt : e0.time < e1.time) :
    is_within_delay e0 e1 = false ∧
    ∃ s' out, s.update ew env = some (s', out) ∧
      s'.bigram = s.bigram ∧ s'.trigram = s.trigram := by
  have hfalse : is_within_delay e0 e1 = false := by
    simp only [is_within_delay, if_neg (by omega : ¬ e1.time ≤ e0.time), MAX_KEY_DELAY]
    decide
  obtain ⟨mid, hmid, hh, hb, ht, hng, hls, hf⟩ := tablesStep_spec s ew ng e0 e1 e2 hpush hw
  obtain ⟨php, pbp, ptp, png⟩ := persistStep_fields mid env
  refine ⟨hfalse, (mid.persistStep env).1, (mid.persistStep env).2, ?_, ?_, ?_⟩
  · simp [Store.update, hmid]
  · rw [pbp, hb, if_neg (by simp [hfalse])]
  · rw [ptp, ht, if_neg (by simp [hfalse])]

/-- Witness for C8: a store whose window holds events at t = 5s receives an
event at t = 4s; the delay check rejects the out-of-order pair, the tables
are untouched, and processing returns normally. -/
theorem c8_witness :
    is_within_delay exEventB exEventA = false ∧
    ∃ s' out, exStore.update exEventB ⟨0, true⟩ = some (s', out) ∧
      s'.bigram = exStore.bigram ∧ s'.trigram = exStore.trigram := by
  refine c8_clock_anomaly exStore exEventB ⟨0, true⟩
    { data := Function.update (fun _ => exEventA) (⟨0, by omega⟩ : Fin 3) exEventB, cursor := 1 }
    exEventB exEventA exEventA ?_ ?_ (by decide)
  · simp [exStore, Buffer.push]
  · simp [Buffer.to_vec, Function.update_apply, Fin.ext_iff]

/-- C1 (amended): for every accepted key-press processed by `update` with
window snapshot `[e0, e1, e2]` (newest first), the bigram count for
`(e1, e0)` is incremented iff `is_within_delay e0 e1` (gap under the
2-second `MAX_KEY_DELAY` window), and the trigram count for `(e2, e1, e0)`
is incremented iff the bigram condition held and additionally
`is_within_delay e1 e2` — the *same* 2-second window again (the source
reuses `MAX_KEY_DELAY` for the chained check; there is no separate
4-second trigram constant). -/
theorem c1_chained_windows (s : Store) (ew : Event) (env : SaveEnv) (ng : Buffer Event)
    (e0 e1 e2 : Event) (hpush : s.ngrams.push ew = some ng) (hw : ng.to_vec = [e0, e1, e2]) :
    ∃ s' out, s.update ew env = some (s', out) ∧
      lookupCount s'.bigram (event_to_keystroke e1, event_to_keystroke e0) =
        lookupCount s.bigram (event_to_keystroke e1, event_to_keystroke e0) +
          (if is_within_delay e0 e1 = true then 1 else 0) ∧
      lookupCount s'.trigram (event_to_keystroke e2, event_to_keystroke e1, event_to_keystroke e0) =
        lookupCount s.trigram (event_to_keystroke e2, event_to_keystroke e1, event_to_keystroke e0) +
          (if (is_within_delay e0 e1 && is_within_delay e1 e2) = true then 1 else 0) := by
  obtain ⟨mid, hmid, hh, hb, ht, _, _, _⟩ := tablesStep_spec s ew ng e0 e1 e2 hpush hw
  obtain ⟨_, pbp, ptp, _⟩ := persistStep_fields mid env
  refine ⟨(mid.persistStep env).1, (mid.persistStep env).2, by simp [Store.update, hmid], ?_, ?_⟩
  · rw [pbp, hb]
    cases hc : is_within_delay e0 e1 <;> simp [lookupCount_incr_self]
  · rw [ptp, ht]
    cases hc : is_within_delay e0 e1 <;> cases hc2 : is_within_delay e1 e2 <;>
      simp [lookupCount_incr_self]

/-- Witness for C1 (amended): pushing an event at t = 5.5s onto a window
full of events at t = 5s records both the bigram and the trigram (both
gaps are 0.5s ≤ 2s). -/
theorem c1_witness :
    ∃ s' out, exStore.update exEventC ⟨0, true⟩ = some (s', out) ∧
      lookupCount s'.bigram (event_to_keystroke exEventA, event_to_keystroke exEventC) = 1 ∧
      lookupCount s'.trigram
        (event_to_keystroke exEventA, event_to_keystroke exEventA, event_to_keystroke exEventC) = 1 := by
  obtain ⟨s', out, h1, h2, h3⟩ := c1_chained_windows exStore exEventC ⟨0, true⟩
    { data := Function.update (fun _ => exEventA) (⟨0, by omega⟩ : Fin 3) exEventC, cursor := 1 }
    exEventC exEventA exEventA (by simp [exStore, Buffer.push])
    (by simp [Buffer.to_vec, Function.update_apply, Fin.ext_iff])
  refine ⟨s', out, h1, ?_, ?_⟩
  · rw [h2]; decide
  · rw [h3]; decide

/-- C1 is false as stated: events A, B, C at t = 1000s, 1003s, 1003.5s.
For the final window `[C, B, A]` the bigram gate holds (0.5s gap, bigram
`(B, C)` is recorded), and the middle-to-oldest gap of 3s is under the
claimed 4-second trigram window — yet the code, which checks that gap
against the 2-second `MAX_KEY_DELAY`, does not increment the trigram
count for `(A, B, C)`. -/
theorem c1_counterexample :
    is_within_delay cexEventC cexEventB = true ∧
    (cexEventB.time - cexEventA.time) / NANOS < 4 ∧
    (processEvents (Store.new 0 "keymap")
        [(cexEventA, quietEnv), (cexEventB, quietEnv), (cexEventC, quietEnv)]).map
      (fun s' => (lookupCount s'.bigram (event_to_keystroke cexEventB, event_to_keystroke cexEventC),
        lookupCount s'.trigram
          (event_to_keystroke cexEventA, event_to_keystroke cexEventB, event_to_keystroke cexEventC)))
      = some (1, 0) := by
  decide

theorem processEvents_total (l : List (Event × SaveEnv)) :
    ∀ s : Store, s.ngrams.cursor < 3 →
      ∃ s', processEvents s l = some s' ∧
        heatmapTotal s' = heatmapTotal s + pressCount l := by
  induction l with
  | nil =>
    intro s _
    exact ⟨s, rfl, by simp [pressCount]⟩
  | cons p rest ih =>
    obtain ⟨e, env⟩ := p
    intro s hs
    cases he : e.event_type with
    | KeyPress k =>
      obtain ⟨ng, hpush, hngc, _, _⟩ := push_step s.ngrams e hs
      obtain ⟨x, y, z, hw⟩ := to_vec_shape ng
      obtain ⟨mid, hmid, hh, _, _, hngr, _, _⟩ := tablesStep_spec s e ng x y z hpush hw
      obtain ⟨php, _, _, pngp⟩ := persistStep_fields mid env
      have hcur : (mid.persistStep env).1.ngrams.cursor < 3 := by
        rw [pngp, hngr]; exact hngc
      obtain ⟨s', hrest, htot⟩ := ih (mid.persistStep env).1 hcur
      refine ⟨s', ?_, ?_⟩
      · simp [processEvents, Store.process_event, he, Store.update, hmid, hrest]
      · have hmidtot : heatmapTotal (mid.persistStep env).1 = heatmapTotal s + 1 := by
          unfold heatmapTotal
          rw [php, hh, incr_total]
        rw [htot, hmidtot, pressCount_cons]
        simp [isPress, he]
        omega
    | KeyRelease k =>
      obtain ⟨s', hrest, htot⟩ := ih s hs
      refine ⟨s', ?_, ?_⟩
      · simp [processEvents, Store.process_event, he, hrest]
      · rw [htot, pressCount_cons]
        simp [isPress, he]
    | Other =>
      obtain ⟨s', hrest, htot⟩ := ih s hs
      refine ⟨s', ?_, ?_⟩
      · simp [processEvents, Store.process_event, he, hrest]
      · rw [htot, pressCount_cons]
        simp [isPress, he]

/-- C4: starting from a fresh store, for every sequence of input events the
processing run completes and the sum of all unigram (heatmap) counts equals
the number of key-press events processed; a non-press event leaves the
store entirely unchanged (contributing to no table). -/
theorem c4_unigram_total :
    (∀ (t : Nat) (f : String) (l : List (Event × SaveEnv)),
      ∃ s', processEvents (Store.new t f) l = some s' ∧ heatmapTotal s' = pressCount l) ∧
    (∀ (s : Store) (e : Event) (env : SaveEnv), isPress e = false →
      s.process_event e env = some (s, SaveOutcome.notAttempted)) := by
  constructor
  · intro t f l
    obtain ⟨s', h1, h2⟩ := processEvents_total l (Store.new t f)
      (by simp [Store.new, Buffer.new])
    refine ⟨s', h1, ?_⟩
    rw [h2]
    simp [heatmapTotal, Store.new]
  · intro s e env h
    unfold Store.process_event
    cases he : e.event_type <;> simp_all [isPress]

/-- Witness for C4: a 3-press run (with one release interleaved) yields a
heatmap totalling 3, and a lone release event leaves a fresh store
untouched. -/
theorem c4_witness :
    (∃ s', processEvents (Store.new 0 "keymap")
        [(cexEventA, quietEnv), (⟨1000 * NANOS, EventType.KeyRelease Key.KeyA, some "a"⟩, quietEnv),
         (cexEventB, quietEnv), (cexEventC, quietEnv)] = some s' ∧
      heatmapTotal s' = pressCount
        [(cexEventA, quietEnv), (⟨1000 * NANOS, EventType.KeyRelease Key.KeyA, some "a"⟩, quietEnv),
         (cexEventB, quietEnv), (cexEventC, quietEnv)]) ∧
    (Store.new 0 "keymap").process_event ⟨0, EventType.KeyRelease Key.KeyA, none⟩ quietEnv =
      some (Store.new 0 "keymap", SaveOutcome.notAttempted) :=
  ⟨c4_unigram_total.1 0 "keymap" _,
   c4_unigram_total.2 (Store.new 0 "keymap") ⟨0, EventType.KeyRelease Key.KeyA, none⟩ quietEnv
     (by decide)⟩

/-- C3 is false as stated: two immediately successive `save` calls on a
fresh store (no intervening `process`), at clock readings 7 and 9, write
different serialized output — the first serializes `last_save = 0`, the
second serializes the `last_save = 7` recorded by the first. -/
theorem c3_counterexample :
    ((Store.new 0 "keymap").save ⟨7, true⟩).2 ≠
      (((Store.new 0 "keymap").save ⟨7, true⟩).1.save ⟨9, true⟩).2 := by
  decide

/-- C3 (amended): two successive successful `save` calls with no intervening
`process` write output identical in every serialized field — frequency
tables, window contents and cursor, filename — except the `last_save`
timestamp: the first save serializes the store's previous `last_save`, the
second serializes the first save's clock reading, so the outputs are
byte-identical iff those two times coincide. -/
theorem c3_save_fields (s : Store) (env1 env2 : SaveEnv)
    (h1 : env1.writeOk = true) (h2 : env2.writeOk = true) :
    ∃ r1 r2, (s.save env1).2 = some r1 ∧ ((s.save env1).1.save env2).2 = some r2 ∧
      r1.heatmap = r2.heatmap ∧ r1.bigram = r2.bigram ∧ r1.trigram = r2.trigram ∧
      r1.ngramsData = r2.ngramsData ∧ r1.ngramsCursor = r2.ngramsCursor ∧
      r1.filename = r2.filename ∧
      r1.last_save = s.last_save ∧ r2.last_save = env1.now ∧
      (r1 = r2 ↔ s.last_save = env1.now) := by
  refine ⟨serializeStore s, serializeStore { s with last_save := env1.now },
    by simp [Store.save, h1], by simp [Store.save, h1, h2], ?_, ?_, ?_, ?_, ?_, ?_, ?_, ?_, ?_⟩ <;>
    simp [serializeStore, serializeBuffer, StoreRepr.mk.injEq]

/-- Witness for C3 (amended): on a store with `last_save = 0`, saving at
t = 7 and again at t = 9 yields outputs with identical tables but
different serialized `last_save` values, hence unequal bytes. -/
theorem c3_witness :
    ∃ r1 r2, (exStore.save ⟨7, true⟩).2 = some r1 ∧
      ((exStore.save ⟨7, true⟩).1.save ⟨9, true⟩).2 = some r2 ∧
      r1.heatmap = r2.heatmap ∧ r1.last_save = exStore.last_save ∧
      r2.last_save = 7 ∧ r1 ≠ r2 := by
  obtain ⟨r1, r2, ha, hb, hheat, _, _, _, _, _, hl1, hl2, hiff⟩ :=
    c3_save_fields exStore ⟨7, true⟩ ⟨9, true⟩ rfl rfl
  exact ⟨r1, r2, ha, hb, hheat, hl1, hl2, fun he => absurd (hiff.mp he) (by decide)⟩

theorem persistStep_outcome (s : Store) (env : SaveEnv) :
    ((s.last_save ≤ env.now ∧ 600 < (env.now - s.last_save) / NANOS →
      (s.persistStep env).2 ≠ SaveOutcome.notAttempted)) ∧
    ((s.persistStep env).2 = SaveOutcome.failed →
      (s.persistStep env).1.last_save = s.last_save ∧ env.writeOk = false) ∧
    (∀ b, (s.persistStep env).2 = SaveOutcome.succeeded b →
      (s.persistStep env).1.last_save = env.now ∧ env.writeOk = true) ∧
    ((s.persistStep env).2 = SaveOutcome.notAttempted →
      (s.persistStep env).1.last_save = s.last_save) := by
  obtain ⟨now, ok⟩ := env
  by_cases hle : s.last_save ≤ now <;> by_cases hgt : 600 < (now - s.last_save) / NANOS <;>
    cases ok <;> simp [Store.persistStep, Store.save, hle, hgt]

/-- C7: within `process`, when the time since the last successful
persistence exceeds the 10-minute (600 s) threshold a save is attempted; a
failed save is swallowed — processing still returns normally, the table
mutations of this very event are kept, and `last_save` is unchanged (so the
next qualifying event retries) — while `last_save` is set to the current
clock reading exactly when the save succeeds. -/
theorem c7_persistence (s : Store) (ew : Event) (env : SaveEnv) (hs : s.ngrams.cursor < 3) :
    ∃ mid s' out, s.tablesStep ew = some mid ∧ s.update ew env = some (s', out) ∧
      s'.heatmap = mid.heatmap ∧ s'.bigram = mid.bigram ∧ s'.trigram = mid.trigram ∧
      (s.last_save ≤ env.now ∧ 600 < (env.now - s.last_save) / NANOS →
        out ≠ SaveOutcome.notAttempted) ∧
      (out = SaveOutcome.failed → s'.last_save = s.last_save ∧ env.writeOk = false) ∧
      (∀ b, out = SaveOutcome.succeeded b → s'.last_save = env.now ∧ env.writeOk = true) ∧
      (out = SaveOutcome.notAttempted → s'.last_save = s.last_save) := by
  obtain ⟨ng, hpush, _, _, _⟩ := push_step s.ngrams ew hs
  obtain ⟨x, y, z, hw⟩ := to_vec_shape ng
  obtain ⟨mid, hmid, _, _, _, _, hls, _⟩ := tablesStep_spec s ew ng x y z hpush hw
  obtain ⟨php, pbp, ptp, _⟩ := persistStep_fields mid env
  obtain ⟨o1, o2, o3, o4⟩ := persistStep_outcome mid env
  rw [hls] at o1 o2 o4
  exact ⟨mid, (mid.persistStep env).1, (mid.persistStep env).2, hmid,
    by simp [Store.update, hmid], php, pbp, ptp, o1, o2, o3, o4⟩

/-- Witness for C7: a fresh store (`last_save = 0`) processes a press with
the clock at t = 700 s and a failing writer; the save is attempted (not
skipped), processing completes, and tables match the pure table step. -/
theorem c7_witness :
    ∃ mid s' out, (Store.new 0 "keymap").tablesStep cexEventA = some mid ∧
      (Store.new 0 "keymap").update cexEventA ⟨700 * NANOS, false⟩ = some (s', out) ∧
      out ≠ SaveOutcome.notAttempted := by
  obtain ⟨mid, s', out, hmid, hup, _, _, _, htrig, _, _, _⟩ :=
    c7_persistence (Store.new 0 "keymap") cexEventA ⟨700 * NANOS, false⟩ (by decide)
  exact ⟨mid, s', out, hmid, hup, htrig (by decide)⟩

/-! ## C6 invariant machinery -/

theorem delay_default_false (e : Event) (h : MAX_KEY_DELAY * NANOS ≤ e.time) :
    is_within_delay e defaultEvent = false := by
  have h2 : MAX_KEY_DELAY ≤ e.time / NANOS := by
    rw [Nat.le_div_iff_mul_le (by norm_num [NANOS])]
    exact h
  simp [is_within_delay, defaultEvent]
  omega

theorem to_vec_mem {T : Type} (b : Buffer T) : ∀ x ∈ b.to_vec, ∃ i : Fin 3, x = b.data i := by
  intro x hx
  simp only [Buffer.to_vec, List.mem_cons, List.not_mem_nil, or_false] at hx
  rcases hx with h | h | h <;> exact ⟨_, h⟩

theorem mem_incr {K : Type} [DecidableEq K] (m : List (K × Nat)) (k : K) :
    ∀ p ∈ incr m k, p.1 = k ∨ p ∈ m := by
  induction m with
  | nil =>
    intro p hp
    simp only [incr, List.mem_singleton] at hp
    subst hp; left; rfl
  | cons kv rest ih =>
    obtain ⟨k1, v⟩ := kv
    intro p hp
    by_cases h1 : k1 = k
    · subst h1
      simp only [incr, if_pos rfl] at hp
      rcases List.mem_cons.mp hp with h2 | h2
      · subst h2; left; rfl
      · right; exact List.mem_cons_of_mem _ h2
    · simp only [incr, if_neg h1] at hp
      rcases List.mem_cons.mp hp with h2 | h2
      · subst h2; right; exact List.mem_cons_self _ _
      · rcases ih p h2 with h3 | h3
        · left; exact h3
        · right; exact List.mem_cons_of_mem _ h3

theorem c6_step (s : Store) (e : Event) (env : SaveEnv) (hInv : c6Inv s)
    (ht : MAX_KEY_DELAY * NANOS ≤ e.time) :
    ∃ s1 out, s.process_event e env = some (s1, out) ∧ c6Inv s1 := by
  cases he : e.event_type with
  | KeyRelease k => exact ⟨s, SaveOutcome.notAttempted, by simp [Store.process_event, he], hInv⟩
  | Other => exact ⟨s, SaveOutcome.notAttempted, by simp [Store.process_event, he], hInv⟩
  | KeyPress k =>
    obtain ⟨hc, hslots, hbparts, htparts⟩ := hInv
    obtain ⟨ng, hpush, hngc, hv1, hdata⟩ := push_step s.ngrams e hc
    obtain ⟨a, b2, c2, hshape⟩ := to_vec_shape s.ngrams
    have hw : ng.to_vec = [e, a, b2] := by
      rw [hv1, hshape]; rfl
    obtain ⟨mid, hmid, hh, hb, htr, hng, _, _⟩ := tablesStep_spec s e ng e a b2 hpush hw
    obtain ⟨php, pbp, ptp, pngp⟩ := persistStep_fields mid env
    -- slot facts for the two older window entries
    have hmemA : ∃ i : Fin 3, a = s.ngrams.data i :=
      to_vec_mem s.ngrams a (by rw [hshape]; simp)
    have hmemB : ∃ i : Fin 3, b2 = s.ngrams.data i :=
      to_vec_mem s.ngrams b2 (by rw [hshape]; simp)
    have hslotA : a = defaultEvent ∨
        (MAX_KEY_DELAY * NANOS ≤ a.time ∧ hasKey s.heatmap (event_to_keystroke a) = true) := by
      obtain ⟨i, hi⟩ := hmemA
      rw [hi]; exact hslots i
    have hslotB : b2 = defaultEvent ∨
        (MAX_KEY_DELAY * NANOS ≤ b2.time ∧ hasKey s.heatmap (event_to_keystroke b2) = true) := by
      obtain ⟨i, hi⟩ := hmemB
      rw [hi]; exact hslots i
    -- if the bigram gate passed, `a` is a real, already-counted event
    have hgateA : is_within_delay e a = true →
        MAX_KEY_DELAY * NANOS ≤ a.time ∧ hasKey s.heatmap (event_to_keystroke a) = true := by
      intro hdel
      rcases hslotA with h | h
      · rw [h, delay_default_false e ht] at hdel; cases hdel
      · exact h
    have hgateB : is_within_delay e a = true → is_within_delay a b2 = true →
        hasKey s.heatmap (event_to_keystroke b2) = true := by
      intro hdelA hdelB
      rcases hslotB with h | h
      · rw [h, delay_default_false a (hgateA hdelA).1] at hdelB; cases hdelB
      · exact h.2
    refine ⟨(mid.persistStep env).1, (mid.persistStep env).2,
      by simp [Store.process_event, he, Store.update, hmid], ?_, ?_, ?_, ?_⟩
    · rw [pngp, hng]; exact hngc
    · -- slot invariant survives: new slot is `e`, old slots keep their fact
      intro i
      rw [pngp, hng, php, hh]
      rcases hdata i with hnew | hold
      · right
        rw [hnew]
        exact ⟨ht, hasKey_incr_self _ _⟩
      · rw [hold]
        rcases hslots i with h | h
        · left; exact h
        · right; exact ⟨h.1, hasKey_incr_mono _ _ _ h.2⟩
    · -- bigram participants
      intro p hp
      rw [php, hh]
      rw [pbp, hb] at hp
      by_cases hdel : is_within_delay e a = true
      · rw [if_pos hdel] at hp
        rcases mem_incr _ _ p hp with hk | hm
        · rw [hk]
          exact ⟨hasKey_incr_mono _ _ _ (hgateA hdel).2, hasKey_incr_self _ _⟩
        · obtain ⟨h1, h2⟩ := hbparts p hm
          exact ⟨hasKey_incr_mono _ _ _ h1, hasKey_incr_mono _ _ _ h2⟩
      · rw [if_neg (by simpa using hdel)] at hp
        obtain ⟨h1, h2⟩ := hbparts p hp
        exact ⟨hasKey_incr_mono _ _ _ h1, hasKey_incr_mono _ _ _ h2⟩
    · -- trigram participants
      intro p hp
      rw [php, hh]
      rw [ptp, htr] at hp
      by_cases hdel : (is_within_delay e a && is_within_delay a b2) = true
      · rw [if_pos hdel] at hp
        rw [Bool.and_eq_true] at hdel
        rcases mem_incr _ _ p hp with hk | hm
        · rw [hk]
          exact ⟨hasKey_incr_mono _ _ _ (hgateB hdel.1 hdel.2),
            hasKey_incr_mono _ _ _ (hgateA hdel.1).2, hasKey_incr_self _ _⟩
        · obtain ⟨h1, h2, h3⟩ := htparts p hm
          exact ⟨hasKey_incr_mono _ _ _ h1, hasKey_incr_mono _ _ _ h2, hasKey_incr_mono _ _ _ h3⟩
      · rw [if_neg (by simpa using hdel)] at hp
        obtain ⟨h1, h2, h3⟩ := htparts p hp
        exact ⟨hasKey_incr_mono _ _ _ h1, hasKey_incr_mono _ _ _ h2, hasKey_incr_mono _ _ _ h3⟩

theorem c6_run (l : List (Event × SaveEnv)) :
    ∀ s : Store, c6Inv s → (∀ p ∈ l, MAX_KEY_DELAY * NANOS ≤ (p : Event × SaveEnv).1.time) →
      ∀ s', processEvents s l = some s' → c6Inv s' := by
  induction l with
  | nil =>
    intro s hInv _ s' h
    simp only [processEvents] at h
    cases h; exact hInv
  | cons p rest ih =>
    obtain ⟨e, env⟩ := p
    intro s hInv hl s' h
    obtain ⟨s1, out, hstep, hInv1⟩ := c6_step s e env hInv (hl (e, env) (List.mem_cons_self _ _))
    rw [processEvents, hstep] at h
    exact ih s1 hInv1 (fun q hq => hl q (List.mem_cons_of_mem _ hq)) s' h

/-- C6 is false as stated: the placeholder's epoch timestamp does *not*
always fail the recency check. Processing a single key press at t = 1s
(within `MAX_KEY_DELAY` of the epoch) from an empty store records the
bigram `(placeholder, A)` — whose placeholder participant has no unigram
entry — and even a spurious warm-up trigram with two placeholder slots. -/
theorem c6_counterexample :
    (processEvents (Store.new 0 "keymap")
        [(⟨NANOS, EventType.KeyPress Key.KeyA, some "a"⟩, quietEnv)]).map
      (fun s' =>
        (s'.bigram.map (fun p => (p.1.1 == placeholderKs, hasKey s'.heatmap p.1.1)),
         s'.trigram.map (fun p => (p.1.1 == placeholderKs, p.1.2.1 == placeholderKs))))
      = some ([(true, false)], [(true, true)]) := by
  decide

/-- C6 (amended): provided every processed event is timestamped at least
`MAX_KEY_DELAY` (2) seconds after the Unix epoch — true of any realistic
clock — every keystroke occurring in any bigram or trigram key of a store
grown from empty is also present in the unigram table (so the generator's
dense-index resolution meets no orphaned participant), and the placeholder's
epoch timestamp indeed fails the recency check against every such event. -/
theorem c6_participants (l : List (Event × SaveEnv)) (t : Nat) (f : String)
    (hl : ∀ p ∈ l, MAX_KEY_DELAY * NANOS ≤ (p : Event × SaveEnv).1.time) (s' : Store)
    (h : processEvents (Store.new t f) l = some s') :
    participantsOk s' ∧
    (∀ e : Event, MAX_KEY_DELAY * NANOS ≤ e.time → is_within_delay e defaultEvent = false) := by
  have hInv0 : c6Inv (Store.new t f) := by
    refine ⟨by simp [Store.new, Buffer.new], fun i => Or.inl rfl, ?_, ?_⟩ <;>
      simp [Store.new, participantsOk]
  exact ⟨(c6_run l (Store.new t f) hInv0 hl s' h).2.2, delay_default_false⟩

/-- Witness for C6 (amended): a two-press run at t = 1000s and t = 1003s
satisfies the participant invariant. -/
theorem c6_witness :
    ∃ s', processEvents (Store.new 0 "keymap") [(cexEventA, quietEnv), (cexEventB, quietEnv)] =
      some s' ∧ participantsOk s' := by
  have hs : (processEvents (Store.new 0 "keymap")
      [(cexEventA, quietEnv), (cexEventB, quietEnv)]).isSome = true := by decide
  exact ⟨_, (Option.some_get hs).symm,
    (c6_participants _ 0 "keymap" (by decide) _ (Option.some_get hs).symm).1⟩

/-! ## Generator lemmas -/

theorem getD_eq_get (l : List Nat) (i : Nat) (h : i < l.length) :
    l.getD i 0 = l.get ⟨i, h⟩ := by
  induction l generalizing i with
  | nil => simp at h
  | cons x xs ih =>
    cases i with
    | zero => simp
    | succ j => simpa using ih j (by simpa using h)

theorem getD_set_self (l : List Nat) (i v : Nat) (h : i < l.length) :
    (l.set i v).getD i 0 = v := by
  induction l generalizing i with
  | nil => simp at h
  | cons x xs ih =>
    cases i with
    | zero => simp
    | succ j => simpa using ih j (by simpa using h)

theorem getD_set_ne (l : List Nat) (i j v : Nat) (h : i ≠ j) :
    (l.set i v).getD j 0 = l.getD j 0 := by
  induction l generalizing i j with
  | nil => simp
  | cons x xs ih =>
    cases i with
    | zero =>
      cases j with
      | zero => exact absurd rfl h
      | succ j2 => simp
    | succ i2 =>
      cases j with
      | zero => simp
      | succ j2 => simpa using ih i2 j2 (by omega)

theorem addWeight_spec (ws : List Nat) (i w : Nat) (h : i < ws.length) :
    ∃ ws', addWeight ws i w = some ws' ∧ ws'.length = ws.length ∧
      ∀ j, ws'.getD j 0 = ws.getD j 0 + (if i = j then w else 0) := by
  refine ⟨ws.set i (ws.get ⟨i, h⟩ + w), by simp [addWeight, h], by simp, ?_⟩
  intro j
  by_cases hij : i = j
  · subst hij
    rw [getD_set_self _ _ _ h, getD_eq_get _ _ h]
    simp
  · rw [getD_set_ne _ _ _ _ hij]
    simp [hij]

theorem contrib_cons (p : Nat × Nat) (rest : List (Nat × Nat)) (j : Nat) :
    contrib (p :: rest) j = (if p.1 = j then p.2 else 0) + contrib rest j := by
  by_cases h : p.1 = j <;> simp [contrib, List.filter_cons, h]

theorem boost_spec (entries : List (Nat × Nat)) :
    ∀ ws : List Nat, (∀ p ∈ entries, p.1 < ws.length) →
      ∃ ws', boost ws entries = some ws' ∧ ws'.length = ws.length ∧
        ∀ j, ws'.getD j 0 = ws.getD j 0 + contrib entries j := by
  induction entries with
  | nil =>
    intro ws _
    exact ⟨ws, rfl, rfl, by simp [contrib]⟩
  | cons p rest ih =>
    intro ws hlt
    obtain ⟨ws1, ha, hlen1, hval1⟩ := addWeight_spec ws p.1 p.2 (hlt p (List.mem_cons_self _ _))
    obtain ⟨ws', hb, hlen', hval'⟩ := ih ws1
      (fun q hq => hlen1 ▸ hlt q (List.mem_cons_of_mem _ hq))
    refine ⟨ws', by simp [boost, ha, hb], by rw [hlen', hlen1], ?_⟩
    intro j
    rw [hval' j, hval1 j, contrib_cons]
    omega

theorem sum_set_get_add (l : List Nat) : ∀ (i w : Nat) (h : i < l.length),
    (l.set i (l.get ⟨i, h⟩ + w)).sum = l.sum + w := by
  induction l with
  | nil => intro i w h; simp at h
  | cons x xs ih =>
    intro i w h
    cases i with
    | zero => simp; omega
    | succ j =>
      simp only [List.set_cons_succ, List.sum_cons, List.get_cons_succ]
      rw [ih j w (by simpa using h)]
      omega

theorem addWeight_sum (ws : List Nat) (i w : Nat) (ws' : List Nat)
    (h : addWeight ws i w = some ws') : ws'.sum = ws.sum + w := by
  unfold addWeight at h
  split at h
  · cases h
    exact sum_set_get_add ws i w _
  · cases h

theorem boost_sum (entries : List (Nat × Nat)) :
    ∀ ws ws' : List Nat, boost ws entries = some ws' → ws.sum ≤ ws'.sum := by
  induction entries with
  | nil =>
    intro ws ws' h
    simp only [boost] at h
    cases h; exact le_refl _
  | cons p rest ih =>
    intro ws ws' h
    simp only [boost] at h
    cases ha : addWeight ws p.1 p.2 with
    | none => rw [ha] at h; cases h
    | some ws1 =>
      rw [ha] at h
      have := addWeight_sum ws p.1 p.2 ws1 ha
      have := ih ws1 ws' h
      omega

theorem addWeight_len (ws : List Nat) (i w : Nat) (ws' : List Nat)
    (h : addWeight ws i w = some ws') : ws'.length = ws.length := by
  unfold addWeight at h
  split at h
  · cases h; simp
  · cases h

theorem boost_len (entries : List (Nat × Nat)) :
    ∀ ws ws' : List Nat, boost ws entries = some ws' → ws'.length = ws.length := by
  induction entries with
  | nil =>
    intro ws ws' h
    simp only [boost] at h
    cases h; rfl
  | cons p rest ih =>
    intro ws ws' h
    simp only [boost] at h
    cases ha : addWeight ws p.1 p.2 with
    | none => rw [ha] at h; cases h
    | some ws1 =>
      rw [ha] at h
      rw [ih ws1 ws' h, addWeight_len ws p.1 p.2 ws1 ha]

theorem weightedChoice_lt (ws : List Nat) : ∀ r : Nat, r < ws.sum →
    weightedChoice ws r < ws.length := by
  induction ws with
  | nil => intro r h; simp at h
  | cons w rest ih =>
    intro r h
    by_cases hr : r < w
    · simp [weightedChoice, hr]
    · simp only [weightedChoice, if_neg hr, List.length_cons]
      have : r - w < rest.sum := by simp [List.sum_cons] at h; omega
      exact Nat.succ_lt_succ (ih (r - w) this)

theorem lookupA_mem {K V : Type} [DecidableEq K] (m : List (K × V)) (k : K) (v : V)
    (h : lookupA m k = some v) : (k, v) ∈ m := by
  induction m with
  | nil => simp [lookupA] at h
  | cons kv rest ih =>
    obtain ⟨k1, v1⟩ := kv
    by_cases h1 : k1 = k
    · subst h1
      simp [lookupA] at h
      subst h
      exact List.mem_cons_self _ _
    · simp only [lookupA, if_neg h1] at h
      exact List.mem_cons_of_mem _ (ih h)

theorem sampleWeights_spec (g : Generator)
    (hist : g.preceeding.2.isSome = true → g.preceeding.1.isSome = true)
    (hb : ∀ q ∈ g.bigram_lookup, ∀ p ∈ q.2, p.1 < g.weights.length)
    (htg : ∀ q ∈ g.trigram_lookup, ∀ p ∈ q.2, p.1 < g.weights.length) :
    ∃ w, g.sampleWeights = some w ∧ w.length = g.weights.length ∧
      ∀ j, w.getD j 0 = g.weights.getD j 0 + bigramContrib g j + trigramContrib g j := by
  cases h0 : g.preceeding.1 with
  | none =>
    cases h1 : g.preceeding.2 with
    | none =>
      refine ⟨g.weights, by simp [Generator.sampleWeights, h0, h1], rfl, ?_⟩
      intro j
      simp [bigramContrib, trigramContrib, h0, h1]
    | some i2 =>
      have hsome := hist (by simp [h1])
      rw [h0] at hsome
      simp at hsome
  | some i =>
    have hentB : ∀ p ∈ (lookupA g.bigram_lookup i).getD [], p.1 < g.weights.length := by
      cases hl : lookupA g.bigram_lookup i with
      | none => simp
      | some entries => simpa using hb (i, entries) (lookupA_mem _ _ _ hl)
    obtain ⟨w1, hw1, hlen1, hval1⟩ := boost_spec _ g.weights hentB
    cases h1 : g.preceeding.2 with
    | none =>
      refine ⟨w1, by simp [Generator.sampleWeights, h0, h1, hw1], hlen1, ?_⟩
      intro j
      rw [hval1 j]
      simp [bigramContrib, trigramContrib, h0, h1]
    | some i2 =>
      have hentT : ∀ p ∈ (lookupA g.trigram_lookup (i2, i)).getD [], p.1 < w1.length := by
        rw [hlen1]
        cases hl : lookupA g.trigram_lookup (i2, i) with
        | none => simp
        | some entries => simpa using htg ((i2, i), entries) (lookupA_mem _ _ _ hl)
      obtain ⟨w2, hw2, hlen2, hval2⟩ := boost_spec _ w1 hentT
      refine ⟨w2, by simp [Generator.sampleWeights, h0, h1, hw1, hw2],
        by rw [hlen2, hlen1], ?_⟩
      intro j
      rw [hval2 j, hval1 j]
      simp [bigramContrib, trigramContrib, h0, h1]

/-- C2: each call of the generator's sampling operation computes its weight
vector as the base unigram weights, plus — when a first preceding index
exists — that index's bigram-adjacency weights, plus — when a second also
exists — the `(second, first)` pair's trigram-adjacency weights; for any
valid draw `r` the history then shifts (second := first, first := drawn
index) and the keystroke at the drawn index is returned. Hypotheses: the
history is well-formed (a second preceding index implies a first) and all
adjacency targets are in range, as `Generator::new` guarantees. -/
theorem c2_sampling (g : Generator)
    (hist : g.preceeding.2.isSome = true → g.preceeding.1.isSome = true)
    (hb : ∀ q ∈ g.bigram_lookup, ∀ p ∈ q.2, p.1 < g.weights.length)
    (htg : ∀ q ∈ g.trigram_lookup, ∀ p ∈ q.2, p.1 < g.weights.length)
    (hk : g.keystrokes.length = g.weights.length) :
    ∃ w, g.sampleWeights = some w ∧ w.length = g.weights.length ∧
      (∀ j, w.getD j 0 = g.weights.getD j 0 + bigramContrib g j + trigramContrib g j) ∧
      ∀ r, r < w.sum →
        ∃ ks, g.keystrokes.get? (weightedChoice w r) = some ks ∧
          g.generate_random_keystroke r =
            some ({ g with preceeding := (some (weightedChoice w r), g.preceeding.1) }, ks) := by
  obtain ⟨w, hsw, hlen, hval⟩ := sampleWeights_spec g hist hb htg
  refine ⟨w, hsw, hlen, hval, ?_⟩
  intro r hr
  have hidx : weightedChoice w r < g.keystrokes.length := by
    rw [hk, ← hlen]
    exact weightedChoice_lt w r hr
  have hsum : ¬ w.sum = 0 := by omega
  refine ⟨g.keystrokes.get ⟨_, hidx⟩, List.get?_eq_get hidx, ?_⟩
  simp [Generator.generate_random_keystroke, hsw, hsum, hr, List.getElem?_eq_getElem hidx]

/-- Witness for C2: on a two-key generator with base weights `[1, 1]`, a
bigram boost of 100 from the preceding index 0 to index 1 yields the weight
vector `[1, 101]`; the draw `r = 50` selects index 1, the history shifts to
`(some 1, some 0)`, and keystroke B is returned. -/
theorem c2_witness :
    ∃ w, exGen.sampleWeights = some w ∧
      w.getD 1 0 = exGen.weights.getD 1 0 + bigramContrib exGen 1 + trigramContrib exGen 1 ∧
      ∃ ks, exGen.generate_random_keystroke 50 =
        some ({ exGen with preceeding := (some (weightedChoice w 50), exGen.preceeding.1) }, ks) := by
  obtain ⟨w, hsw, hlen, hval, hgen⟩ := c2_sampling exGen (by decide) (by decide) (by decide)
    (by decide)
  have hw : w = [1, 101] := by
    have : exGen.sampleWeights = some [1, 101] := by decide
    exact Option.some.inj (hsw.symm.trans this)
  obtain ⟨ks, _, hg⟩ := hgen 50 (by rw [hw]; decide)
  exact ⟨w, hsw, hval 1, ks, hg⟩

/-! ## C5 machinery -/

theorem sampleWeights_sum (g : Generator) (w : List Nat) (h : g.sampleWeights = some w) :
    g.weights.sum ≤ w.sum := by
  cases h0 : g.preceeding.1 with
  | none =>
    cases h1 : g.preceeding.2 with
    | none =>
      simp only [Generator.sampleWeights, h0, h1, Option.some.injEq] at h
      subst h; exact le_refl _
    | some i2 => simp [Generator.sampleWeights, h0, h1] at h
  | some i =>
    cases hb1 : boost g.weights ((lookupA g.bigram_lookup i).getD []) with
    | none => simp [Generator.sampleWeights, h0, hb1] at h
    | some w1 =>
      have hle1 := boost_sum _ _ _ hb1
      cases h1 : g.preceeding.2 with
      | none =>
        simp only [Generator.sampleWeights, h0, h1, hb1, Option.some.injEq] at h
        subst h; exact hle1
      | some i2 =>
        cases hb2 : boost w1 ((lookupA g.trigram_lookup (i2, i)).getD []) with
        | none => simp [Generator.sampleWeights, h0, h1, hb1, hb2] at h
        | some w2 =>
          simp only [Generator.sampleWeights, h0, h1, hb1, hb2, Option.some.injEq] at h
          subst h
          exact le_trans hle1 (boost_sum _ _ _ hb2)

theorem sampleWeights_len (g : Generator) (w : List Nat) (h : g.sampleWeights = some w) :
    w.length = g.weights.length := by
  cases h0 : g.preceeding.1 with
  | none =>
    cases h1 : g.preceeding.2 with
    | none =>
      simp only [Generator.sampleWeights, h0, h1, Option.some.injEq] at h
      subst h; rfl
    | some i2 => simp [Generator.sampleWeights, h0, h1] at h
  | some i =>
    cases hb1 : boost g.weights ((lookupA g.bigram_lookup i).getD []) with
    | none => simp [Generator.sampleWeights, h0, hb1] at h
    | some w1 =>
      have hlen1 := boost_len _ _ _ hb1
      cases h1 : g.preceeding.2 with
      | none =>
        simp only [Generator.sampleWeights, h0, h1, hb1, Option.some.injEq] at h
        subst h; exact hlen1
      | some i2 =>
        cases hb2 : boost w1 ((lookupA g.trigram_lookup (i2, i)).getD []) with
        | none => simp [Generator.sampleWeights, h0, h1, hb1, hb2] at h
        | some w2 =>
          simp only [Generator.sampleWeights, h0, h1, hb1, hb2, Option.some.injEq] at h
          subst h
          rw [boost_len _ _ _ hb2, hlen1]

theorem new_fields (ksMap : List (Keystroke × Nat)) (bgMap : List ((Keystroke × Keystroke) × Nat))
    (tgMap : List ((Keystroke × Keystroke × Keystroke) × Nat)) (g : Generator)
    (h : Generator.new ksMap bgMap tgMap = some g) :
    g.keystrokes = ksMap.map Prod.fst ∧ g.weights = ksMap.map Prod.snd := by
  simp only [Generator.new] at h
  split at h
  · simp at h
  · split at h
    · simp at h
    · rw [Option.some.injEq] at h
      subst h
      exact ⟨rfl, rfl⟩

theorem tablesStep_heatmap (s : Store) (ew : Event) (mid : Store)
    (h : s.tablesStep ew = some mid) :
    ∃ e0, mid.heatmap = incr s.heatmap (event_to_keystroke e0) := by
  cases hpush : s.ngrams.push ew with
  | none => simp [Store.tablesStep, hpush] at h
  | some ng =>
    obtain ⟨x, y, z, hw⟩ := to_vec_shape ng
    obtain ⟨mid2, hmid, hh, _, _, _, _, _⟩ := tablesStep_spec s ew ng x y z hpush hw
    rw [hmid] at h
    cases h
    exact ⟨x, hh⟩

theorem processEvents_pos (l : List (Event × SaveEnv)) :
    ∀ s : Store, (∀ kv ∈ s.heatmap, 0 < kv.2) → ∀ s', processEvents s l = some s' →
      ∀ kv ∈ s'.heatmap, 0 < kv.2 := by
  induction l with
  | nil =>
    intro s hpos s' h
    simp only [processEvents] at h
    cases h
    exact hpos
  | cons p rest ih =>
    obtain ⟨e, env⟩ := p
    intro s hpos s' h
    simp only [processEvents] at h
    cases hpe : s.process_event e env with
    | none => simp [hpe] at h
    | some pr =>
      obtain ⟨s1, out⟩ := pr
      rw [hpe] at h
      have hpos1 : ∀ kv ∈ s1.heatmap, 0 < kv.2 := by
        cases he : e.event_type with
        | KeyPress k =>
          simp only [Store.process_event, he] at hpe
          unfold Store.update at hpe
          cases hts : s.tablesStep e with
          | none => rw [hts] at hpe; simp at hpe
          | some mid =>
            rw [hts] at hpe
            simp only [Option.map_some', Option.some.injEq] at hpe
            have hfst := congrArg Prod.fst hpe
            obtain ⟨php, _, _, _⟩ := persistStep_fields mid env
            obtain ⟨e0, hh⟩ := tablesStep_heatmap s e mid hts
            simp only at hfst
            rw [← hfst, php, hh]
            exact incr_pos _ _ hpos
        | KeyRelease k =>
          simp only [Store.process_event, he, Option.some.injEq, Prod.mk.injEq] at hpe
          rw [← hpe.1]
          exact hpos
        | Other =>
          simp only [Store.process_event, he, Option.some.injEq, Prod.mk.injEq] at hpe
          rw [← hpe.1]
          exact hpos
      exact ih s1 hpos1 s' h

/-- C5: the weighted draw (`WeightedIndex::new`) fails exactly when every
weight is zero (all weights non-positive — they are unsigned counts), and
for a generator built by `Generator::new` from the non-empty unigram table
of a store grown from empty — whose base weights are the strictly positive
heatmap counts — the boosted weight vector of any sampling call has
positive total, so sampling never hits the failure branch, whatever the
history. -/
theorem c5_sampling_safe (l : List (Event × SaveEnv)) (t : Nat) (f : String) (s' : Store)
    (hs : processEvents (Store.new t f) l = some s') (hne : s'.heatmap ≠ [])
    (bg : List ((Keystroke × Keystroke) × Nat))
    (tg : List ((Keystroke × Keystroke × Keystroke) × Nat))
    (g : Generator) (hg : Generator.new s'.heatmap bg tg = some g)
    (p : Option Nat × Option Nat) (w : List Nat)
    (hw : ({ g with preceeding := p } : Generator).sampleWeights = some w) :
    (w.sum = 0 ↔ ∀ x ∈ w, x = 0) ∧ 0 < w.sum ∧
    (∀ r, r < w.sum → ({ g with preceeding := p } : Generator).generate_random_keystroke r ≠ none) := by
  have hpos := processEvents_pos l (Store.new t f) (by simp [Store.new]) s' hs
  obtain ⟨hkeys, hwts⟩ := new_fields s'.heatmap bg tg g hg
  have hwpos : ∀ x ∈ g.weights, 0 < x := by
    rw [hwts]
    intro x hx
    obtain ⟨kv, hkv, rfl⟩ := List.mem_map.mp hx
    exact hpos kv hkv
  have hwne : g.weights ≠ [] := by
    rw [hwts]
    simpa using hne
  have hbase : 0 < g.weights.sum := List.sum_pos _ hwpos hwne
  have hsum : g.weights.sum ≤ w.sum := sampleWeights_sum { g with preceeding := p } w hw
  have hlenw : w.length = g.weights.length := sampleWeights_len { g with preceeding := p } w hw
  refine ⟨List.sum_eq_zero_iff, by omega, ?_⟩
  intro r hr
  have hidx : weightedChoice w r < g.keystrokes.length := by
    have h1 := weightedChoice_lt w r hr
    have h2 : g.keystrokes.length = g.weights.length := by
      rw [hkeys, hwts]; simp
    simp only at hlenw
    omega
  have hz : ¬ w.sum = 0 := by omega
  simp [Generator.generate_random_keystroke, hw, hz, hr, List.getElem?_eq_getElem hidx]

/-- Witness for C5: one press at t = 1000s yields the heatmap `[(A, 1)]`; a
generator built from it (no bigrams/trigrams) has weight vector `[1]` with
positive total, and the draw `r = 0` succeeds. -/
theorem c5_witness :
    ∃ s' g w, processEvents (Store.new 0 "keymap") [(cexEventA, quietEnv)] = some s' ∧
      Generator.new s'.heatmap [] [] = some g ∧
      ({ g with preceeding := (none, none) } : Generator).sampleWeights = some w ∧
      0 < w.sum ∧
      ({ g with preceeding := (none, none) } : Generator).generate_random_keystroke 0 ≠ none := by
  cases hp : processEvents (Store.new 0 "keymap") [(cexEventA, quietEnv)] with
  | none => exact absurd (congrArg Option.isSome hp) (by decide)
  | some sv =>
    have hconc : Option.map Store.heatmap
        (processEvents (Store.new 0 "keymap") [(cexEventA, quietEnv)]) =
        some [(⟨Key.KeyA, "a"⟩, 1)] := by decide
    rw [hp] at hconc
    have hh : sv.heatmap = [(⟨Key.KeyA, "a"⟩, 1)] := by simpa using hconc
    have hgeq : Generator.new sv.heatmap [] [] =
        some ⟨[⟨Key.KeyA, "a"⟩], [1], [], [], (none, none)⟩ := by
      rw [hh]; decide
    have hweq : (({ (⟨[⟨Key.KeyA, "a"⟩], [1], [], [], (none, none)⟩ : Generator) with
        preceeding := (none, none) } : Generator).sampleWeights) = some [1] := by decide
    obtain ⟨hiff, hpos, hgen⟩ := c5_sampling_safe [(cexEventA, quietEnv)] 0 "keymap" sv hp
      (by rw [hh]; simp) [] [] ⟨[⟨Key.KeyA, "a"⟩], [1], [], [], (none, none)⟩ hgeq
      (none, none) [1] hweq
    exact ⟨sv, ⟨[⟨Key.KeyA, "a"⟩], [1], [], [], (none, none)⟩, [1], rfl, hgeq, hweq, hpos,
      hgen 0 hpos⟩

end Konsone
